import Mathlib

/- Verification of the rigrun maintenance script fix_cache_store.py.

The script reads src/server/mod.rs, replaces a legacy cache-store block
(regex old_pattern) with a new conditional block (new_code) via re.sub, writes
the file back and prints a success message.  This development embeds:

* the substitution itself (the pattern is a pure literal, so re.sub is
  leftmost non-overlapping literal replacement, modelled by replaceAll);
* the installed Rust block as a small statement AST whose renderer reproduces
  the exact replacement text, together with an event-trace semantics for its
  locking and awaiting behaviour;
* the semantic cache subsystem the block calls into.  Its code is not part of
  this repository, so those definitions are modelled from the specification
  and marked as such.
-/

set_option maxRecDepth 10000

/-- Leftmost scan of a character list for non-overlapping occurrences of the
nonempty pattern p0 :: ps, returning the list of segments between occurrences
(and before the first and after the last one).  This mirrors how re.sub scans
its input for a literal pattern. -/
def splitFrom (p0 : Char) (ps : List Char) : List Char → List (List Char)
  | [] => [[]]
  | c :: rest =>
    if (p0 :: ps).isPrefixOf (c :: rest)
    then [] :: splitFrom p0 ps (rest.drop ps.length)
    else
      match splitFrom p0 ps rest with
      | [] => [[c]]
      | u :: us => (c :: u) :: us
termination_by s => s.length
decreasing_by
  · simp [List.length_drop]; omega
  · simp

/-- Segment split for an arbitrary pattern; the script only ever uses the
nonempty literal old_pattern (an empty regex behaves differently in Python,
but is out of scope of this model and unused below). -/
def splitOnPat (p s : List Char) : List (List Char) :=
  match p with
  | [] => [s]
  | p0 :: ps => splitFrom p0 ps s

/-- Replacement of every non-overlapping occurrence of p by r, leftmost first:
the semantics of Python re.sub(p, r, s) for a nonempty literal pattern p. -/
def replaceAll (p r s : List Char) : List Char :=
  List.intercalate r (splitOnPat p s)

/-- Boolean occurrence check: does p occur as a contiguous substring of the
second argument? -/
def hasInfixB (p : List Char) : List Char → Bool
  | [] => p.isEmpty
  | c :: rest => p.isPrefixOf (c :: rest) || hasInfixB p rest

/-- Boolean side condition used for idempotence: no nonempty proper suffix of
p (that is, p.drop k for 0 < k < p.length) is a prefix of r. -/
def dropPrefixFree (p r : List Char) : Bool :=
  (List.range p.length).all fun k => decide (k = 0) || !((p.drop k).isPrefixOf r)

/-- The regex source string old_pattern of fix_cache_store.py (lines 9-16),
verbatim. -/
def oldPatternStr : String := "    // Store response in cache for future hits\n    let mut cache = state\\.cache\\.write\\(\\)\\.await;\n    cache\\.store_response\\(\n        cache_key,\n        response_text\\.clone\\(\\),\n        actual_tier,\n        prompt_tokens \\+ completion_tokens,\n    \\)\\.await;"

/-- The literal text old_pattern denotes once its identity escapes are
resolved: the legacy store block in src/server/mod.rs. -/
def oldLiteralStr : String := "    // Store response in cache for future hits\n    let mut cache = state.cache.write().await;\n    cache.store_response(\n        cache_key,\n        response_text.clone(),\n        actual_tier,\n        prompt_tokens + completion_tokens,\n    ).await;"

/-- The replacement string new_code of fix_cache_store.py (lines 19-39),
verbatim. -/
def newCodeStr : String := "    // Store response in cache for future hits\n    // CRITICAL FIX: Use pre-generated embedding to avoid holding write lock during embedding generation\n    let mut cache = state.cache.write().await;\n    if let Some(emb) = embedding \x7b\n        // Use store_with_embedding to avoid regenerating the embedding\n        cache.store_with_embedding(\n            cache_key,\n            emb,\n            response_text.clone(),\n            actual_tier,\n            prompt_tokens + completion_tokens,\n        );\n    \x7d else \x7b\n        // Fallback to regular store if embedding generation failed earlier\n        cache.store_response(\n            cache_key,\n            response_text.clone(),\n            actual_tier,\n            prompt_tokens + completion_tokens,\n        ).await;\n    \x7d"

/-- The regex metacharacters of Python re: ordinary characters other than
these denote themselves. -/
def reMeta : List Char := ['.', '^', '$', '*', '+', '?', '\x7b', '\x7d', '[', ']', '\\', '|', '(', ')']

/-- Python regex parsing restricted to the fragment old_pattern lives in:
an ordinary character is a literal, a backslash followed by a non-alphanumeric
character is an identity escape.  Unescaped metacharacters and special escapes
are outside the modelled fragment and yield none. -/
def parsePat : List Char → Option (List Char)
  | [] => some []
  | '\\' :: [] => none
  | '\\' :: c :: rest =>
      if c.isAlphanum then none
      else (parsePat rest).map (fun l => c :: l)
  | c :: rest =>
      if c ∈ reMeta then none
      else (parsePat rest).map (fun l => c :: l)

/-- re.sub(pat, repl, s) for patterns in the literal fragment.  For a pattern
outside the fragment the input is returned unchanged; this branch is
unreachable for the script (theorem parsePat_oldPattern below). -/
def reSub (pat repl s : List Char) : List Char :=
  match parsePat pat with
  | some lit => replaceAll lit repl s
  | none => s

/-- The file path the script opens for reading and writing (lines 5 and 45). -/
def targetPath : String := "C:\\rigrun\\src\\server\\mod.rs"

/-- The message printed at line 48. -/
def successMessage : String := "File modified successfully!"

/-- Observable effects of the script on its environment. -/
inductive Effect where
  | readFile (path : String)
  | writeFile (path : String) (content : List Char)
  | printLine (msg : String)
deriving DecidableEq

/-- The effect trace of fix_cache_store.py on a file whose current text is
content: read the target file, compute re.sub(old_pattern, new_code, content),
write the result back to the same file, print the success message. -/
def runScript (content : List Char) : List Effect :=
  let new_content := reSub oldPatternStr.data newCodeStr.data content
  [Effect.readFile targetPath, Effect.writeFile targetPath new_content,
   Effect.printLine successMessage]

/-- Indentation helper for the renderer. -/
def spacesStr (n : Nat) : String := String.mk (List.replicate n ' ')

/-- Argument expressions occurring in the cache calls of the old and new
blocks: identifiers, recv.clone(), and a + b. -/
inductive RArg where
  | ident (name : String)
  | cloneCall (recv : String)
  | add (a b : String)
deriving DecidableEq

/-- Rust surface syntax of an argument expression. -/
def renderArg : RArg → String
  | .ident n => n
  | .cloneCall r => r ++ ".clone()"
  | .add a b => a ++ " + " ++ b

/-- Non-branching Rust statements occurring in the blocks: line comments,
`let mut v = expr.await;`, and `recv.m(args);` with or without `.await`. -/
inductive FlatStmt where
  | lineComment (text : String)
  | letMutAwait (v : String) (expr : String)
  | methodCallStmt (recv m : String) (args : List RArg) (awaited : Bool)
deriving DecidableEq

/-- Statements of the replacement block: a flat statement or
`if let Some(binder) = scrut` with two branches of flat statements (the
installed block has no deeper nesting). -/
inductive RStmt where
  | flat (s : FlatStmt)
  | ifLetSome (binder scrut : String) (thenB elseB : List FlatStmt)
deriving DecidableEq

/-- Renderer from the statement AST back to Rust source lines, at a given
indentation; arguments are rendered one per line at indent + 4, matching the
script text. -/
def renderFlat (ind : Nat) : FlatStmt → List String
  | .lineComment text => [spacesStr ind ++ text]
  | .letMutAwait v e => [spacesStr ind ++ "let mut " ++ v ++ " = " ++ e ++ ".await;"]
  | .methodCallStmt recv m args aw =>
      (spacesStr ind ++ recv ++ "." ++ m ++ "(") ::
      (args.map (fun a => spacesStr (ind + 4) ++ renderArg a ++ ",")) ++
      [spacesStr ind ++ ")" ++ (if aw then ".await;" else ";")]

/-- Renderer for a statement, including the `if let Some` layout used by
new_code. -/
def renderStmt (ind : Nat) : RStmt → List String
  | .flat s => renderFlat ind s
  | .ifLetSome b scrut thenB elseB =>
      (spacesStr ind ++ "if let Some(" ++ b ++ ") = " ++ scrut ++ " \x7b") ::
      ((thenB.map (renderFlat (ind + 4))).flatten ++
       [spacesStr ind ++ "\x7d else \x7b"] ++
       (elseB.map (renderFlat (ind + 4))).flatten ++
       [spacesStr ind ++ "\x7d"])

/-- Renderer for a block of statements. -/
def renderRBlock (ind : Nat) (b : List RStmt) : List String :=
  (b.map (renderStmt ind)).flatten

/-- Joins rendered lines with newlines. -/
def joinLines (ls : List String) : String := String.intercalate "\n" ls

/-- The argument list of cache.store_response at the call site: cache_key,
response_text.clone(), actual_tier, prompt_tokens + completion_tokens. -/
def storeCallArgs : List RArg :=
  [RArg.ident "cache_key", RArg.cloneCall "response_text", RArg.ident "actual_tier",
   RArg.add "prompt_tokens" "completion_tokens"]

/-- The then-branch of the installed block (new_code lines 23-30): the
synchronous store_with_embedding call on the pre-generated embedding. -/
def fastBranch : List FlatStmt :=
  [FlatStmt.lineComment "// Use store_with_embedding to avoid regenerating the embedding",
   FlatStmt.methodCallStmt "cache" "store_with_embedding"
     [RArg.ident "cache_key", RArg.ident "emb", RArg.cloneCall "response_text",
      RArg.ident "actual_tier", RArg.add "prompt_tokens" "completion_tokens"] false]

/-- The else-branch of the installed block (new_code lines 32-38): the
awaited store_response call. -/
def fallbackBranch : List FlatStmt :=
  [FlatStmt.lineComment "// Fallback to regular store if embedding generation failed earlier",
   FlatStmt.methodCallStmt "cache" "store_response" storeCallArgs true]

/-- The replacement block new_code as an AST; theorem render_installed checks
it reproduces the script's replacement string exactly. -/
def installedBlockAst : List RStmt :=
  [RStmt.flat (FlatStmt.lineComment "// Store response in cache for future hits"),
   RStmt.flat (FlatStmt.lineComment "// CRITICAL FIX: Use pre-generated embedding to avoid holding write lock during embedding generation"),
   RStmt.flat (FlatStmt.letMutAwait "cache" "state.cache.write()"),
   RStmt.ifLetSome "emb" "embedding" fastBranch fallbackBranch]

/-- The legacy block old_pattern matches, as an AST; theorem render_old
checks it reproduces the literal text exactly. -/
def oldBlockAst : List RStmt :=
  [RStmt.flat (FlatStmt.lineComment "// Store response in cache for future hits"),
   RStmt.flat (FlatStmt.letMutAwait "cache" "state.cache.write()"),
   RStmt.flat (FlatStmt.methodCallStmt "cache" "store_response" storeCallArgs true)]

/-- Events of a block execution: acquiring and releasing the exclusive
(write) lock on state.cache, an awaited embedding computation, and the
in-memory insert (index update + entry store write). -/
inductive Ev where
  | acquireWrite
  | releaseWrite
  | embedGenAwaited
  | insertIndexStore
deriving DecidableEq

/-- Modelled from the spec: the bodies of store_with_embedding and
store_response are not in this repository (they belong to the cache subsystem
the script patches).  Per section 4.1 of the spec, store_with_embedding
performs only the in-memory insert and is synchronous with respect to the
caller, while store_response computes the embedding internally - an awaited,
potentially slow call - and then performs the insert. -/
def calleeEvents (m : String) : List Ev :=
  if m == "store_with_embedding" then [Ev.insertIndexStore]
  else if m == "store_response" then [Ev.embedGenAwaited, Ev.insertIndexStore]
  else []

/-- Events of a flat statement: comments contribute nothing; the only
let-await in the block is `let mut cache = state.cache.write().await`, the
exclusive lock acquisition; a method call contributes its callee's events. -/
def flatEvents : FlatStmt → List Ev
  | .lineComment _ => []
  | .letMutAwait _ _ => [Ev.acquireWrite]
  | .methodCallStmt _ m _ _ => calleeEvents m

/-- Events of a statement given the value of the option the block's
`if let Some(emb) = embedding` scrutinises. -/
def stmtEvents {α : Type} (embedding : Option α) : RStmt → List Ev
  | .flat s => flatEvents s
  | .ifLetSome _ _ thenB elseB =>
      match embedding with
      | some _ => (thenB.map flatEvents).flatten
      | none => (elseB.map flatEvents).flatten

/-- Events of a block. -/
def blockEvents {α : Type} (embedding : Option α) (b : List RStmt) : List Ev :=
  (b.map (stmtEvents embedding)).flatten

/-- The event trace of the installed block: the Rust guard `cache` is
dropped, releasing the write lock, when the enclosing scope ends after the
block. -/
def installedBlockEvents {α : Type} (embedding : Option α) : List Ev :=
  blockEvents embedding installedBlockAst ++ [Ev.releaseWrite]

/-- The events of a trace that occur while the exclusive write lock is held
(the Boolean argument is whether the lock is held at the start). -/
def eventsUnderWriteLock : List Ev → Bool → List Ev
  | [], _ => []
  | Ev.acquireWrite :: tr, _ => eventsUnderWriteLock tr true
  | Ev.releaseWrite :: tr, _ => eventsUnderWriteLock tr false
  | e :: tr, held => (if held then [e] else []) ++ eventsUnderWriteLock tr held

/-- Whether an event is a suspension point (.await): acquiring the write
lock and an awaited embedding computation suspend; the in-memory insert does
not. -/
def isSuspensionEv : Ev → Bool
  | Ev.acquireWrite => true
  | Ev.embedGenAwaited => true
  | _ => false

/-- The part of a trace that follows the write-lock acquisition. -/
def afterAcquire : List Ev → List Ev
  | [] => []
  | Ev.acquireWrite :: tr => tr
  | _ :: tr => afterAcquire tr

/-- The variables of the enclosing request handler that the installed block
reads: cache_key, the optional pre-generated embedding, response_text,
actual_tier, prompt_tokens and completion_tokens. -/
structure CallSiteEnv (Key Emb Resp Tier : Type) where
  cache_key : Key
  embedding : Option Emb
  response_text : Resp
  actual_tier : Tier
  prompt_tokens : Nat
  completion_tokens : Nat

/-- The cache method invocations the installed block can make, with their
argument values. -/
inductive CacheCall (Key Emb Resp Tier : Type) where
  | store_with_embedding (key : Key) (emb : Emb) (resp : Resp) (tier : Tier) (tokens : Nat)
  | store_response (key : Key) (resp : Resp) (tier : Tier) (tokens : Nat)
deriving DecidableEq

/-- The invocation the installed block makes, transcribed from new_code
lines 22-39: on Some(emb) it calls store_with_embedding, on None it falls back
to store_response, each with the argument values shown in the script. -/
def installedBlockCall {Key Emb Resp Tier : Type} (env : CallSiteEnv Key Emb Resp Tier) :
    CacheCall Key Emb Resp Tier :=
  match env.embedding with
  | some emb =>
      CacheCall.store_with_embedding env.cache_key emb env.response_text env.actual_tier
        (env.prompt_tokens + env.completion_tokens)
  | none =>
      CacheCall.store_response env.cache_key env.response_text env.actual_tier
        (env.prompt_tokens + env.completion_tokens)

/-- Modelled from the spec (section 3): a cache entry records key, optional
embedding, response payload, tier and token cost.  The embedding is optional
because the key-only fallback insertion of section 4.1 stores an entry without
one. -/
structure CacheEntry (Key Emb Resp Tier : Type) where
  key : Key
  embedding : Option Emb
  response : Resp
  tier : Tier
  tokens : Nat
deriving DecidableEq

/-- Modelled from the spec (sections 2-4): the Semantic Cache owns the Entry
Store (entries keyed by entry identifier) and the Similarity Index (embeddings
mapped to entry identifiers); nextId is the next fresh entry identifier. -/
structure SemanticCache (Key Emb Resp Tier : Type) where
  nextId : Nat
  store : List (Nat × CacheEntry Key Emb Resp Tier)
  index : List (Emb × Nat)
deriving DecidableEq

/-- The empty cache. -/
def emptyCache {Key Emb Resp Tier : Type} : SemanticCache Key Emb Resp Tier :=
  ⟨0, [], []⟩

/-- Modelled from the spec (section 4.1): the fast path inserts the entry
into the store and the index in one critical section, using the caller's
pre-computed embedding. -/
def store_with_embedding {Key Emb Resp Tier : Type}
    (c : SemanticCache Key Emb Resp Tier)
    (key : Key) (emb : Emb) (resp : Resp) (tier : Tier) (tokens : Nat) :
    SemanticCache Key Emb Resp Tier :=
  { nextId := c.nextId + 1,
    store := (c.nextId, ⟨key, some emb, resp, tier, tokens⟩) :: c.store,
    index := (emb, c.nextId) :: c.index }

/-- Modelled from the spec (sections 4.1 and 7): the legacy path computes
the embedding via the provider (providerResult is the provider's outcome); on
provider failure it falls back to a key-only insertion - the entry is still
recorded, but has no index entry - and never signals an error to the caller. -/
def store_response {Key Emb Resp Tier : Type}
    (c : SemanticCache Key Emb Resp Tier)
    (providerResult : Option Emb)
    (key : Key) (resp : Resp) (tier : Tier) (tokens : Nat) :
    SemanticCache Key Emb Resp Tier :=
  match providerResult with
  | some emb => store_with_embedding c key emb resp tier tokens
  | none =>
      { nextId := c.nextId + 1,
        store := (c.nextId, ⟨key, none, resp, tier, tokens⟩) :: c.store,
        index := c.index }

/-- Modelled from the spec (sections 4.2 and 4.3): removal deletes the entry
from the store and the index in the same critical section. -/
def removeEntry {Key Emb Resp Tier : Type}
    (c : SemanticCache Key Emb Resp Tier) (id : Nat) :
    SemanticCache Key Emb Resp Tier :=
  { nextId := c.nextId,
    store := c.store.filter (fun q => q.1 != id),
    index := c.index.filter (fun q => q.2 != id) }

/-- Modelled from the spec (glossary): exact-key lookup in the entry store;
the most recent insertion for a key wins. -/
def lookupByKey {Key Emb Resp Tier : Type} [DecidableEq Key]
    (c : SemanticCache Key Emb Resp Tier) (key : Key) : Option (Resp × Tier) :=
  (c.store.find? (fun q => q.2.key == key)).map (fun q => (q.2.response, q.2.tier))

/-- State effect of a cache invocation, given the provider outcome that
store_response would observe. -/
def applyCall {Key Emb Resp Tier : Type}
    (providerResult : Option Emb)
    (c : SemanticCache Key Emb Resp Tier) :
    CacheCall Key Emb Resp Tier → SemanticCache Key Emb Resp Tier
  | CacheCall.store_with_embedding key emb resp tier tokens =>
      store_with_embedding c key emb resp tier tokens
  | CacheCall.store_response key resp tier tokens =>
      store_response c providerResult key resp tier tokens

/-- Modelled from the spec (section 8): the operations a sequence may
perform against the cache through the patched call site - the two store paths
(store_response carrying the provider outcome) and removal. -/
inductive CacheOp (Key Emb Resp Tier : Type) where
  | storeWithEmbedding (key : Key) (emb : Emb) (resp : Resp) (tier : Tier) (tokens : Nat)
  | storeResponse (providerResult : Option Emb) (key : Key) (resp : Resp) (tier : Tier)
      (tokens : Nat)
  | remove (id : Nat)
deriving DecidableEq

/-- State effect of one operation; each operation is a single atomic
transition, reflecting that index and store are mutated only under the same
exclusive critical section. -/
def applyOp {Key Emb Resp Tier : Type}
    (c : SemanticCache Key Emb Resp Tier) :
    CacheOp Key Emb Resp Tier → SemanticCache Key Emb Resp Tier
  | CacheOp.storeWithEmbedding key emb resp tier tokens =>
      store_with_embedding c key emb resp tier tokens
  | CacheOp.storeResponse providerResult key resp tier tokens =>
      store_response c providerResult key resp tier tokens
  | CacheOp.remove id => removeEntry c id

/-- State after a sequence of operations. -/
def applyOps {Key Emb Resp Tier : Type}
    (c : SemanticCache Key Emb Resp Tier) (ops : List (CacheOp Key Emb Resp Tier)) :
    SemanticCache Key Emb Resp Tier :=
  ops.foldl applyOp c

/-- Every entry reachable from the Similarity Index has a live entry in the
Entry Store. -/
def indexToStore {Key Emb Resp Tier : Type}
    (c : SemanticCache Key Emb Resp Tier) : Prop :=
  ∀ p ∈ c.index, ∃ q ∈ c.store, q.1 = p.2

/-- Every Entry Store entry is reachable from the Similarity Index. -/
def storeToIndex {Key Emb Resp Tier : Type}
    (c : SemanticCache Key Emb Resp Tier) : Prop :=
  ∀ q ∈ c.store, ∃ p ∈ c.index, p.2 = q.1

/-- The two-way index/store consistency invariant of spec sections 3 and 8. -/
def consistentCache {Key Emb Resp Tier : Type}
    (c : SemanticCache Key Emb Resp Tier) : Prop :=
  indexToStore c ∧ storeToIndex c

/-- Whether an operation carries an embedding into the index: only a
store_response whose provider failed does not. -/
def opProvidesEmbedding {Key Emb Resp Tier : Type} : CacheOp Key Emb Resp Tier → Bool
  | CacheOp.storeResponse none _ _ _ _ => false
  | _ => true

/-- Modelled from the spec (section 5): the state of the reader/writer lock
guarding the cache. -/
inductive LockSt where
  | free
  | readHeld
  | writeHeld
deriving DecidableEq

/-- Program counter of a concurrent task performing a lookup: it must
acquire the shared lock, read, and release. -/
inductive LookerPC where
  | start
  | reading
  | finished
deriving DecidableEq

/-- Modelled from the spec (section 5): cooperative interleaving of one task
running the installed block on the fallback path (storerRem is its remaining
event list) and one task attempting a lookup. -/
structure Sys where
  lock : LockSt
  storerRem : List Ev
  looker : LookerPC
deriving DecidableEq

/-- A slow embedding computation is modelled as d atomic steps. -/
def expandEmbed (d : Nat) : Ev → List Ev
  | Ev.embedGenAwaited => List.replicate d Ev.embedGenAwaited
  | e => [e]

/-- The storer's program: the installed block's fallback trace with the
awaited embedding generation taking d steps. -/
def slowEmbedProg (d : Nat) : List Ev :=
  ((installedBlockEvents (none : Option Unit)).map (expandEmbed d)).flatten

/-- Initial state: lock free, storer about to run the block, looker about to
acquire the shared lock. -/
def initSys (d : Nat) : Sys :=
  ⟨LockSt.free, slowEmbedProg d, LookerPC.start⟩

/-- One step of the storer: write-lock acquisition succeeds only when the
lock is free; release frees it; other events leave the lock unchanged.  A
blocked or finished storer makes no progress. -/
def storerStep (s : Sys) : Sys :=
  match s.storerRem with
  | [] => s
  | Ev.acquireWrite :: rest =>
      match s.lock with
      | LockSt.free => ⟨LockSt.writeHeld, rest, s.looker⟩
      | _ => s
  | Ev.releaseWrite :: rest => ⟨LockSt.free, rest, s.looker⟩
  | _ :: rest => ⟨s.lock, rest, s.looker⟩

/-- One step of the looker: shared-lock acquisition succeeds only when the
lock is not held exclusively (with a single reader, only when free); reading
then releasing completes the lookup.  A blocked looker makes no progress. -/
def lookerStep (s : Sys) : Sys :=
  match s.looker with
  | LookerPC.start =>
      match s.lock with
      | LockSt.free => ⟨LockSt.readHeld, s.storerRem, LookerPC.reading⟩
      | _ => s
  | LookerPC.reading => ⟨LockSt.free, s.storerRem, LookerPC.finished⟩
  | LookerPC.finished => s

/-- Run a schedule: true steps the storer, false steps the looker. -/
def runSched : List Bool → Sys → Sys
  | [], s => s
  | b :: bs, s => runSched bs (if b then storerStep s else lookerStep s)

/-- The storer is inside its critical section: it has acquired the write
lock (consumed some of its program) and has not yet run the release. -/
def storerInside (d : Nat) (s : Sys) : Prop :=
  s.storerRem ≠ slowEmbedProg d ∧ s.storerRem ≠ []

/-- The shapes the storer's remaining program can take. -/
def storerProgSuffix (d : Nat) (rem : List Ev) : Prop :=
  rem = slowEmbedProg d ∨
  (∃ j, j ≤ d ∧
    rem = List.replicate j Ev.embedGenAwaited ++ [Ev.insertIndexStore, Ev.releaseWrite]) ∨
  rem = [Ev.releaseWrite] ∨ rem = []

/-- System invariant: while the storer is inside its critical section the
lock is held exclusively; while the looker reads it holds the shared lock; the
storer's remaining program is a suffix of its program. -/
def sysInv (d : Nat) (s : Sys) : Prop :=
  (storerInside d s → s.lock = LockSt.writeHeld) ∧
  (s.looker = LookerPC.reading → s.lock = LockSt.readHeld) ∧
  storerProgSuffix d s.storerRem

/-- The awaited flags of the method calls of a branch, in order. -/
def branchAwaitFlags (b : List FlatStmt) : List Bool :=
  b.filterMap (fun s => match s with
    | FlatStmt.methodCallStmt _ _ _ aw => some aw
    | _ => none)

theorem intercalate_pair (sep a : List Char) (b : List Char) (t : List (List Char)) :
    List.intercalate sep (a :: b :: t) = a ++ sep ++ List.intercalate sep (b :: t) := by
  simp [List.intercalate, List.intersperse, List.flatten, List.append_assoc]

theorem intercalate_one (sep a : List Char) :
    List.intercalate sep [a] = a := by
  simp [List.intercalate, List.intersperse]

theorem intercalate_cons_char (sep : List Char) (c : Char) (u : List Char)
    (us : List (List Char)) :
    List.intercalate sep ((c :: u) :: us) = c :: List.intercalate sep (u :: us) := by
  cases us with
  | nil => simp [intercalate_one]
  | cons v t => simp [intercalate_pair]

theorem splitFrom_ne_nil (p0 : Char) (ps : List Char) (s : List Char) :
    splitFrom p0 ps s ≠ [] := by
  induction s using splitFrom.induct p0 ps with
  | case1 => simp [splitFrom]
  | case2 c rest h ih => simp [splitFrom, h]
  | case3 c rest h heq => simp [splitFrom, h, heq]
  | case4 c rest h u us heq ih => simp [splitFrom, h, heq]

theorem splitFrom_nil (p0 : Char) (ps : List Char) : splitFrom p0 ps [] = [[]] := by
  simp [splitFrom]

theorem splitFrom_pos (p0 : Char) (ps : List Char) (c : Char) (rest : List Char)
    (h : (p0 :: ps).isPrefixOf (c :: rest) = true) :
    splitFrom p0 ps (c :: rest) = [] :: splitFrom p0 ps (rest.drop ps.length) := by
  simp [splitFrom, h]

theorem splitFrom_neg (p0 : Char) (ps : List Char) (c : Char) (rest : List Char)
    (u : List Char) (us : List (List Char))
    (h : ¬ (p0 :: ps).isPrefixOf (c :: rest) = true)
    (heq : splitFrom p0 ps rest = u :: us) :
    splitFrom p0 ps (c :: rest) = (c :: u) :: us := by
  simp [splitFrom, h, heq]

theorem splitFrom_headPrefix (p0 : Char) (ps : List Char) :
    ∀ {s u us}, splitFrom p0 ps s = u :: us → u <+: s := by
  intro s
  induction s using splitFrom.induct p0 ps with
  | case1 =>
    intro u us h
    rw [splitFrom_nil] at h
    cases h
    exact List.nil_prefix
  | case2 c rest h ih =>
    intro u us hh
    rw [splitFrom_pos p0 ps c rest h] at hh
    cases hh
    exact List.nil_prefix
  | case3 c rest h heq =>
    exact absurd heq (splitFrom_ne_nil p0 ps rest)
  | case4 c rest h u us heq ih =>
    intro v vs hh
    rw [splitFrom_neg p0 ps c rest u us h heq, List.cons.injEq] at hh
    obtain ⟨hv, _⟩ := hh
    obtain ⟨t, ht⟩ := ih heq
    exact hv ▸ ⟨t, by rw [List.cons_append, ht]⟩

theorem splitFrom_intercalate (p0 : Char) (ps : List Char) (s : List Char) :
    List.intercalate (p0 :: ps) (splitFrom p0 ps s) = s := by
  induction s using splitFrom.induct p0 ps with
  | case1 => simp [splitFrom_nil, intercalate_one]
  | case2 c rest h ih =>
    rw [splitFrom_pos p0 ps c rest h]
    obtain ⟨u, us, huus⟩ : ∃ u us, splitFrom p0 ps (rest.drop ps.length) = u :: us := by
      cases hs : splitFrom p0 ps (rest.drop ps.length) with
      | nil => exact absurd hs (splitFrom_ne_nil p0 ps _)
      | cons u us => exact ⟨u, us, rfl⟩
    rw [huus] at ih
    rw [huus, intercalate_pair, ih]
    have hpre : (p0 :: ps) <+: (c :: rest) := List.isPrefixOf_iff_prefix.mp h
    obtain ⟨t, ht⟩ := hpre
    have hrest : rest = ps ++ t := by
      have h2 := ht
      rw [List.cons_append, List.cons.injEq] at h2
      exact h2.2.symm
    have hdrop : rest.drop ps.length = t := by
      rw [hrest, List.drop_left]
    rw [hdrop, List.nil_append]
    exact ht
  | case3 c rest h heq =>
    exact absurd heq (splitFrom_ne_nil p0 ps rest)
  | case4 c rest h u us heq ih =>
    rw [splitFrom_neg p0 ps c rest u us h heq, intercalate_cons_char, ← heq, ih]

theorem splitFrom_no_occ (p0 : Char) (ps : List Char) (s : List Char) :
    ∀ u ∈ splitFrom p0 ps s, ¬ (p0 :: ps) <:+: u := by
  induction s using splitFrom.induct p0 ps with
  | case1 =>
    intro u hu
    rw [splitFrom_nil, List.mem_singleton] at hu
    subst hu
    simp
  | case2 c rest h ih =>
    intro u hu
    rw [splitFrom_pos p0 ps c rest h, List.mem_cons] at hu
    rcases hu with rfl | hu
    · simp
    · exact ih u hu
  | case3 c rest h heq =>
    exact absurd heq (splitFrom_ne_nil p0 ps rest)
  | case4 c rest h u us heq ih =>
    intro v hv
    rw [splitFrom_neg p0 ps c rest u us h heq, List.mem_cons] at hv
    rcases hv with rfl | hv
    · intro hinf
      rcases List.infix_cons_iff.mp hinf with hpre | hinf'
      · have hu : u <+: rest := splitFrom_headPrefix p0 ps heq
        obtain ⟨t, ht⟩ := hu
        have hp2 : (p0 :: ps) <+: (c :: rest) := by
          refine hpre.trans ⟨t, ?_⟩
          rw [List.cons_append, ht]
        rw [← List.isPrefixOf_iff_prefix] at hp2
        exact h hp2
      · refine ih u ?_ hinf'
        rw [heq]
        exact List.mem_cons_self u us
    · refine ih v ?_
      rw [heq]
      exact List.mem_cons_of_mem u hv

theorem splitFrom_eq_of_no_occ (p0 : Char) (ps : List Char) (s : List Char)
    (h : ¬ (p0 :: ps) <:+: s) : splitFrom p0 ps s = [s] := by
  induction s using splitFrom.induct p0 ps with
  | case1 => exact splitFrom_nil p0 ps
  | case2 c rest hpos ih =>
    exact absurd ((List.isPrefixOf_iff_prefix.mp hpos).isInfix) h
  | case3 c rest hneg heq =>
    exact absurd heq (splitFrom_ne_nil p0 ps rest)
  | case4 c rest hneg u us heq ih =>
    have hrest : ¬ (p0 :: ps) <:+: rest := by
      intro hi
      exact h ( List.infix_cons_iff.mpr (Or.inr hi))
    have h1 : splitFrom p0 ps rest = [rest] := ih hrest
    have h2 : u = rest ∧ us = [] := by
      rw [heq] at h1
      exact ⟨(List.cons.injEq .. |>.mp h1).1, (List.cons.injEq .. |>.mp h1).2⟩
    rw [splitFrom_neg p0 ps c rest u us hneg heq, h2.1, h2.2]

theorem occurrence_append_split {α : Type} {p a b : List α} (h : p <:+: a ++ b) :
    p <:+: a ∨ p <:+: b ∨
      ∃ p₁ p₂, p = p₁ ++ p₂ ∧ p₁ ≠ [] ∧ p₂ ≠ [] ∧ p₁ <:+ a ∧ p₂ <+: b := by
  obtain ⟨s, t, hst⟩ := h
  by_cases h1 : s.length + p.length ≤ a.length
  · left
    have hsp : (s ++ p) <+: (a ++ b) := ⟨t, by rw [← hst, List.append_assoc]⟩
    have hsp2 : (s ++ p) <+: a := by
      refine List.prefix_of_prefix_length_le hsp ( List.prefix_append a b) ?_
      simpa using h1
    obtain ⟨w, hw⟩ := hsp2
    exact ⟨s, w, by rw [← hw, List.append_assoc]⟩
  · by_cases h2 : a.length ≤ s.length
    · right; left
      have hs : s <+: (a ++ b) := ⟨p ++ t, by rw [← hst, List.append_assoc]⟩
      have has : a <+: s := List.prefix_of_prefix_length_le ( List.prefix_append a b) hs h2
      obtain ⟨w, hw⟩ := has
      have hb : b = w ++ p ++ t := by
        have h3 : a ++ (w ++ p ++ t) = a ++ b := by
          rw [← hst, ← hw]
          simp [List.append_assoc]
        exact (List.append_cancel_left h3).symm
      exact ⟨w, t, hb.symm⟩
    · right; right
      have hk1 : a.length - s.length < p.length := by omega
      have hk0 : 0 < a.length - s.length := by omega
      set k := a.length - s.length with hk
      refine ⟨p.take k, p.drop k, (List.take_append_drop k p).symm, ?_, ?_, ?_, ?_⟩
      · intro hnil
        have hlen : (p.take k).length = 0 := by rw [hnil]; rfl
        rw [List.length_take] at hlen
        omega
      · intro hnil
        have hlen : (p.drop k).length = 0 := by rw [hnil]; rfl
        rw [List.length_drop] at hlen
        omega
      · -- p.take k is a suffix of a
        have ha : a = s ++ p.take k := by
          have h3 : a = (a ++ b).take a.length := by simp
          rw [← hst] at h3
          rw [List.append_assoc] at h3
          have h4 : (s ++ (p ++ t)).take a.length = s ++ (p ++ t).take k := by
            have h5 : a.length = s.length + k := by omega
            rw [h5, List.take_append]
          have h6 : (p ++ t).take k = p.take k := by
            refine List.take_append_of_le_length ?_
            omega
          rw [h4, h6] at h3
          exact h3
        exact ⟨s, ha.symm⟩
      · -- p.drop k is a prefix of b
        have hb : b = p.drop k ++ t := by
          have h3 : b = (a ++ b).drop a.length := by simp
          rw [← hst] at h3
          rw [List.append_assoc] at h3
          have h4 : (s ++ (p ++ t)).drop a.length = (p ++ t).drop k := by
            have h5 : a.length = s.length + k := by omega
            rw [h5, List.drop_append]
          have h6 : (p ++ t).drop k = p.drop k ++ t := by
            refine List.drop_append_of_le_length ?_
            omega
          rw [h4, h6] at h3
          exact h3
        exact ⟨t, hb.symm⟩

theorem mem_of_getLast?_eq {α : Type} : ∀ (l : List α) (x : α), l.getLast? = some x → x ∈ l
  | [], x, h => by simp at h
  | [a], x, h => by
      simp [List.getLast?] at h
      simp [h]
  | a :: b :: t, x, h => by
      rw [List.getLast?_cons_cons] at h
      exact List.mem_cons_of_mem a (mem_of_getLast?_eq (b :: t) x h)

theorem suffix_contains_last {α : Type} {r' l : List α} {c : α}
    (hs : l <:+ r' ++ [c]) (hne : l ≠ []) : c ∈ l := by
  obtain ⟨w, hw⟩ := hs
  have h1 : l.getLast? = some c := by
    have h2 : (w ++ l).getLast? = some c := by
      rw [hw, List.getLast?_concat]
    rw [List.getLast?_append] at h2
    cases hl : l.getLast? with
    | none => rw [List.getLast?_eq_none_iff] at hl; exact absurd hl hne
    | some y => rw [hl] at h2; simpa using h2
  exact mem_of_getLast?_eq l c h1

theorem no_occ_intercalate (p r : List Char) (r' : List Char) (c : Char)
    (hr : r = r' ++ [c]) (hc : c ∉ p)
    (hin : ¬ p <:+: r)
    (hpre : ∀ k, 0 < k → k < p.length → ¬ (p.drop k <+: r)) :
    ∀ us : List (List Char), (∀ u ∈ us, ¬ p <:+: u) →
      ¬ p <:+: List.intercalate r us := by
  intro us
  induction us with
  | nil =>
    intro _ hinf
    simp [List.intercalate] at hinf
    subst hinf
    exact hin List.nil_infix
  | cons u us ih =>
    intro hall hinf
    cases us with
    | nil =>
      rw [intercalate_one] at hinf
      exact hall u (List.mem_singleton.mpr rfl) hinf
    | cons v t =>
      rw [intercalate_pair, List.append_assoc] at hinf
      rcases occurrence_append_split hinf with h1 | h1 | h1
      · exact hall u (List.mem_cons_self u (v :: t)) h1
      · rcases occurrence_append_split h1 with h2 | h2 | h2
        · exact hin h2
        · exact ih (fun w hw => hall w (List.mem_cons_of_mem u hw)) h2
        · obtain ⟨p₁, p₂, hp, hp1, hp2, hsuf, hpref⟩ := h2
          have : c ∈ p₁ := suffix_contains_last (hr ▸ hsuf) hp1
          exact hc (hp ▸ List.mem_append.mpr (Or.inl this))
      · obtain ⟨p₁, p₂, hp, hp1, hp2, hsuf, hpref⟩ := h1
        by_cases hlen : p₂.length ≤ r.length
        · have hp2r : p₂ <+: r := by
            refine List.prefix_of_prefix_length_le hpref ( List.prefix_append r _) hlen
          have hk : p₂ = p.drop p₁.length := by
            rw [hp, List.drop_left]
          have hk0 : 0 < p₁.length := List.length_pos.mpr hp1
          have hklt : p₁.length < p.length := by
            have := congrArg List.length hp
            rw [List.length_append] at this
            have h2 : 0 < p₂.length := List.length_pos.mpr hp2
            omega
          exact hpre p₁.length hk0 hklt (hk ▸ hp2r)
        · have hrp2 : r <+: p₂ := by
            refine List.prefix_of_prefix_length_le ( List.prefix_append r _) hpref ?_
            omega
          have hcr : c ∈ r := by
            rw [hr]
            exact List.mem_append.mpr (Or.inr (List.mem_singleton.mpr rfl))
          have : c ∈ p₂ := hrp2.subset hcr
          exact hc (hp ▸ List.mem_append.mpr (Or.inr this))

theorem replaceAll_no_occ (p r : List Char) (r' : List Char) (c : Char)
    (hr : r = r' ++ [c]) (hc : c ∉ p)
    (hin : ¬ p <:+: r)
    (hpre : ∀ k, 0 < k → k < p.length → ¬ (p.drop k <+: r)) :
    ∀ s, ¬ p <:+: replaceAll p r s := by
  intro s
  cases p with
  | nil => exact absurd List.nil_infix hin
  | cons p0 ps =>
    exact no_occ_intercalate (p0 :: ps) r r' c hr hc hin hpre
      (splitFrom p0 ps s) (splitFrom_no_occ p0 ps s)

theorem replaceAll_eq_of_no_occ (p r s : List Char) (h : ¬ p <:+: s) :
    replaceAll p r s = s := by
  cases p with
  | nil => simp [replaceAll, splitOnPat, intercalate_one]
  | cons p0 ps =>
    rw [replaceAll, splitOnPat, splitFrom_eq_of_no_occ p0 ps s h, intercalate_one]

theorem replaceAll_idem (p r : List Char) (r' : List Char) (c : Char)
    (hr : r = r' ++ [c]) (hc : c ∉ p)
    (hin : ¬ p <:+: r)
    (hpre : ∀ k, 0 < k → k < p.length → ¬ (p.drop k <+: r)) :
    ∀ s, replaceAll p r (replaceAll p r s) = replaceAll p r s := by
  intro s
  exact replaceAll_eq_of_no_occ p r _ (replaceAll_no_occ p r r' c hr hc hin hpre s)

theorem hasInfixB_iff (p : List Char) : ∀ s, hasInfixB p s = true ↔ p <:+: s := by
  intro s
  induction s with
  | nil =>
    simp only [hasInfixB, List.isEmpty_iff, List.infix_nil]
  | cons c rest ih =>
    simp only [hasInfixB, Bool.or_eq_true, ih, List.isPrefixOf_iff_prefix]
    constructor
    · rintro (h | h)
      · exact h.isInfix
      · exact List.infix_cons_iff.mpr (Or.inr h)
    · intro h
      rcases List.infix_cons_iff.mp h with h | h
      · exact Or.inl h
      · exact Or.inr h

theorem dropPrefixFree_spec (p r : List Char) (h : dropPrefixFree p r = true) :
    ∀ k, 0 < k → k < p.length → ¬ (p.drop k <+: r) := by
  intro k hk0 hklt hpre
  rw [dropPrefixFree, List.all_eq_true] at h
  have hmem : k ∈ List.range p.length := List.mem_range.mpr hklt
  have := h k hmem
  rw [Bool.or_eq_true, decide_eq_true_iff, Bool.not_eq_true'] at this
  rcases this with h1 | h1
  · omega
  · rw [← List.isPrefixOf_iff_prefix] at hpre
    rw [h1] at hpre
    exact Bool.false_ne_true hpre

/-- old_pattern lies in the literal fragment of Python regex syntax and
denotes exactly the legacy block text: every metacharacter in it is escaped,
so re.sub performs literal replacement. -/
theorem parsePat_oldPattern : parsePat oldPatternStr.data = some oldLiteralStr.data := by
  decide

/-- Claim C8: the script's transformation is idempotent: running the
substitution twice yields the same text as running it once, because the
replacement text contains no occurrence of the legacy block (its second line
is the CRITICAL FIX comment) and no new occurrence can arise across the edges
of an inserted replacement. -/
theorem substitution_idempotent (s : List Char) :
    replaceAll oldLiteralStr.data newCodeStr.data
        (replaceAll oldLiteralStr.data newCodeStr.data s) =
      replaceAll oldLiteralStr.data newCodeStr.data s := by
  refine replaceAll_idem _ _ newCodeStr.data.dropLast '\x7d' ?_ ?_ ?_ ?_ s
  · decide
  · decide
  · intro h
    rw [← hasInfixB_iff] at h
    revert h
    decide
  · exact dropPrefixFree_spec _ _ (by decide)

/-- Faithfulness of the AST: rendering installedBlockAst at the call site's
indentation reproduces the script's replacement string new_code character for
character. -/
theorem render_installed : joinLines (renderRBlock 4 installedBlockAst) = newCodeStr := by
  rfl

/-- Faithfulness of the AST: rendering oldBlockAst reproduces the literal
text matched by old_pattern character for character. -/
theorem render_old : joinLines (renderRBlock 4 oldBlockAst) = oldLiteralStr := by
  rfl

theorem indexToStore_applyOp {Key Emb Resp Tier : Type}
    (c : SemanticCache Key Emb Resp Tier) (op : CacheOp Key Emb Resp Tier)
    (h : indexToStore c) : indexToStore (applyOp c op) := by
  cases op with
  | storeWithEmbedding key emb resp tier tokens =>
    intro p hp
    simp only [applyOp, store_with_embedding, List.mem_cons] at hp ⊢
    rcases hp with rfl | hp
    · exact ⟨(c.nextId, ⟨key, some emb, resp, tier, tokens⟩), Or.inl rfl, rfl⟩
    · obtain ⟨q, hq, hqe⟩ := h p hp
      exact ⟨q, Or.inr hq, hqe⟩
  | storeResponse providerResult key resp tier tokens =>
    cases providerResult with
    | some emb =>
      intro p hp
      simp only [applyOp, store_response, store_with_embedding, List.mem_cons] at hp ⊢
      rcases hp with rfl | hp
      · exact ⟨(c.nextId, ⟨key, some emb, resp, tier, tokens⟩), Or.inl rfl, rfl⟩
      · obtain ⟨q, hq, hqe⟩ := h p hp
        exact ⟨q, Or.inr hq, hqe⟩
    | none =>
      intro p hp
      simp only [applyOp, store_response, List.mem_cons] at hp ⊢
      obtain ⟨q, hq, hqe⟩ := h p hp
      exact ⟨q, Or.inr hq, hqe⟩
  | remove id =>
    intro p hp
    simp only [applyOp, removeEntry, List.mem_filter] at hp ⊢
    obtain ⟨hp1, hp2⟩ := hp
    obtain ⟨q, hq, hqe⟩ := h p hp1
    refine ⟨q, ⟨hq, ?_⟩, hqe⟩
    rw [hqe]
    exact hp2

theorem storeToIndex_applyOp {Key Emb Resp Tier : Type}
    (c : SemanticCache Key Emb Resp Tier) (op : CacheOp Key Emb Resp Tier)
    (hop : opProvidesEmbedding op = true)
    (h : storeToIndex c) : storeToIndex (applyOp c op) := by
  cases op with
  | storeWithEmbedding key emb resp tier tokens =>
    intro q hq
    simp only [applyOp, store_with_embedding, List.mem_cons] at hq ⊢
    rcases hq with rfl | hq
    · exact ⟨(emb, c.nextId), Or.inl rfl, rfl⟩
    · obtain ⟨p, hp, hpe⟩ := h q hq
      exact ⟨p, Or.inr hp, hpe⟩
  | storeResponse providerResult key resp tier tokens =>
    cases providerResult with
    | some emb =>
      intro q hq
      simp only [applyOp, store_response, store_with_embedding, List.mem_cons] at hq ⊢
      rcases hq with rfl | hq
      · exact ⟨(emb, c.nextId), Or.inl rfl, rfl⟩
      · obtain ⟨p, hp, hpe⟩ := h q hq
        exact ⟨p, Or.inr hp, hpe⟩
    | none => simp [opProvidesEmbedding] at hop
  | remove id =>
    intro q hq
    simp only [applyOp, removeEntry, List.mem_filter] at hq ⊢
    obtain ⟨hq1, hq2⟩ := hq
    obtain ⟨p, hp, hpe⟩ := h q hq1
    refine ⟨p, ⟨hp, ?_⟩, hpe⟩
    rw [hpe]
    exact hq2

theorem indexToStore_applyOps {Key Emb Resp Tier : Type}
    (ops : List (CacheOp Key Emb Resp Tier)) :
    ∀ (c : SemanticCache Key Emb Resp Tier), indexToStore c →
      indexToStore (applyOps c ops) := by
  induction ops with
  | nil => intro c h; exact h
  | cons op rest ih =>
    intro c h
    exact ih (applyOp c op) (indexToStore_applyOp c op h)

theorem storeToIndex_applyOps {Key Emb Resp Tier : Type}
    (ops : List (CacheOp Key Emb Resp Tier))
    (hops : ∀ op ∈ ops, opProvidesEmbedding op = true) :
    ∀ (c : SemanticCache Key Emb Resp Tier), storeToIndex c →
      storeToIndex (applyOps c ops) := by
  induction ops with
  | nil => intro c h; exact h
  | cons op rest ih =>
    intro c h
    exact ih (fun o ho => hops o (List.mem_cons_of_mem op ho)) (applyOp c op)
      (storeToIndex_applyOp c op (hops op (List.mem_cons_self op rest)) h)

/-- Counterexample for claim C6: a single store_response whose provider
failed performs the spec-mandated key-only fallback insertion, leaving a live
Entry Store entry with no Similarity Index entry, so the two-way
index/store consistency stated by the claim fails for that sequence. -/
theorem index_store_divergence_counterexample :
    ¬ consistentCache
        (applyOps (emptyCache : SemanticCache Nat Nat String Nat)
          [CacheOp.storeResponse none 1 "R" 0 5]) := by
  intro h
  obtain ⟨_, h2⟩ := h
  obtain ⟨p, hp, _⟩ := h2 (0, ⟨1, none, "R", 0, 5⟩)
    (by simp [applyOps, applyOp, store_response, emptyCache])
  simp [applyOps, applyOp, store_response, emptyCache] at hp

theorem slowEmbedProg_eq (d : Nat) :
    slowEmbedProg d =
      Ev.acquireWrite ::
        (List.replicate d Ev.embedGenAwaited ++ [Ev.insertIndexStore, Ev.releaseWrite]) := by
  simp [slowEmbedProg, installedBlockEvents, blockEvents, installedBlockAst, stmtEvents,
    flatEvents, fastBranch, fallbackBranch, calleeEvents, expandEmbed, storeCallArgs]

theorem sysInv_init (d : Nat) : sysInv d (initSys d) := by
  refine ⟨fun h => absurd rfl h.1, fun h => by simp [initSys] at h, Or.inl rfl⟩

theorem sysInv_storerStep (d : Nat) (s : Sys) (h : sysInv d s) : sysInv d (storerStep s) := by
  obtain ⟨lock, rem, looker⟩ := s
  obtain ⟨h1, h2, h3⟩ := h
  rcases h3 with hrem | ⟨j, hj, hrem⟩ | hrem | hrem
  · subst hrem
    cases lock with
    | free =>
      have hstep : storerStep ⟨LockSt.free, slowEmbedProg d, looker⟩ =
          ⟨LockSt.writeHeld,
           List.replicate d Ev.embedGenAwaited ++ [Ev.insertIndexStore, Ev.releaseWrite],
           looker⟩ := by
        rw [slowEmbedProg_eq]
        rfl
      rw [hstep]
      refine ⟨fun _ => rfl, ?_, Or.inr (Or.inl ⟨d, Nat.le_refl d, rfl⟩)⟩
      intro hr
      have hx := h2 hr
      simp at hx
    | readHeld =>
      have hstep : storerStep ⟨LockSt.readHeld, slowEmbedProg d, looker⟩ =
          ⟨LockSt.readHeld, slowEmbedProg d, looker⟩ := by
        rw [slowEmbedProg_eq]
        rfl
      rw [hstep]
      exact ⟨h1, h2, Or.inl rfl⟩
    | writeHeld =>
      have hstep : storerStep ⟨LockSt.writeHeld, slowEmbedProg d, looker⟩ =
          ⟨LockSt.writeHeld, slowEmbedProg d, looker⟩ := by
        rw [slowEmbedProg_eq]
        rfl
      rw [hstep]
      exact ⟨h1, h2, Or.inl rfl⟩
  · have hne : List.replicate j Ev.embedGenAwaited ++ [Ev.insertIndexStore, Ev.releaseWrite] ≠
        slowEmbedProg d := by
      rw [slowEmbedProg_eq]
      cases j with
      | zero => simp
      | succ j' => simp [List.replicate_succ]
    have hnn : List.replicate j Ev.embedGenAwaited ++ [Ev.insertIndexStore, Ev.releaseWrite] ≠
        ([] : List Ev) := by simp
    have hlock : lock = LockSt.writeHeld :=
      h1 ⟨by rw [hrem]; exact hne, by rw [hrem]; exact hnn⟩
    subst hlock
    cases j with
    | zero =>
      simp only [List.replicate, List.nil_append] at hrem
      subst hrem
      refine ⟨fun _ => rfl, ?_, Or.inr (Or.inr (Or.inl rfl))⟩
      intro hr
      have hx := h2 hr
      simp at hx
    | succ j' =>
      rw [List.replicate_succ, List.cons_append] at hrem
      subst hrem
      refine ⟨fun _ => rfl, ?_, Or.inr (Or.inl ⟨j', by omega, ?_⟩)⟩
      · intro hr
        have hx := h2 hr
        simp at hx
      · rfl
  · have hlock : lock = LockSt.writeHeld := by
      refine h1 ⟨?_, by rw [hrem]; simp⟩
      rw [hrem, slowEmbedProg_eq]
      simp
    subst hlock
    subst hrem
    refine ⟨?_, ?_, Or.inr (Or.inr (Or.inr rfl))⟩
    · intro hin
      exact absurd rfl hin.2
    · intro hr
      have hx := h2 hr
      simp at hx
  · subst hrem
    exact ⟨fun hin => absurd rfl hin.2, h2, Or.inr (Or.inr (Or.inr rfl))⟩

theorem sysInv_lookerStep (d : Nat) (s : Sys) (h : sysInv d s) : sysInv d (lookerStep s) := by
  obtain ⟨lock, rem, looker⟩ := s
  obtain ⟨h1, h2, h3⟩ := h
  cases looker with
  | start =>
    cases lock with
    | free =>
      refine ⟨?_, fun _ => rfl, h3⟩
      intro hin
      have hx := h1 hin
      simp at hx
    | readHeld => exact ⟨h1, h2, h3⟩
    | writeHeld => exact ⟨h1, h2, h3⟩
  | reading =>
    refine ⟨?_, ?_, h3⟩
    · intro hin
      exact absurd ((h1 hin).symm.trans (h2 rfl)) (by decide)
    · intro hr
      exact LookerPC.noConfusion hr
  | finished => exact ⟨h1, h2, h3⟩

theorem sysInv_runSched (d : Nat) (sched : List Bool) :
    ∀ s, sysInv d s → sysInv d (runSched sched s) := by
  induction sched with
  | nil => intro s h; exact h
  | cons b bs ih =>
    intro s h
    rw [runSched]
    cases b with
    | true => exact ih _ (sysInv_storerStep d s h)
    | false => exact ih _ (sysInv_lookerStep d s h)

theorem lookerStep_blocked (s : Sys) (hl : s.looker = LookerPC.start)
    (hw : s.lock = LockSt.writeHeld) : lookerStep s = s := by
  obtain ⟨lock, rem, looker⟩ := s
  simp only at hl hw
  subst hl
  subst hw
  rfl

/-- Claim C7 (code bug): the claim states that no concurrent lookup ever
blocks on an in-flight embedding computation triggered by a concurrent
store_response.  Under the installed block's fallback path the write lock is
held for the whole awaited store_response, so for every embedding duration d
and every schedule, whenever the storer is inside its critical section - which
contains the entire d-step embedding generation - the lock is held exclusively
and the looker's shared-lock acquisition step makes no progress: the lookup's
wait grows with the embedding latency instead of being bounded. -/
theorem lookup_blocked_while_fallback_holds_lock (d : Nat) (sched : List Bool)
    (h : storerInside d (runSched sched (initSys d))) :
    (runSched sched (initSys d)).lock = LockSt.writeHeld ∧
    ((runSched sched (initSys d)).looker = LookerPC.start →
      lookerStep (runSched sched (initSys d)) = runSched sched (initSys d)) := by
  have hinv := sysInv_runSched d sched (initSys d) (sysInv_init d)
  obtain ⟨h1, h2, h3⟩ := hinv
  exact ⟨h1 h, fun hl => lookerStep_blocked _ hl (h1 h)⟩

/-- Witness for claim C7: after the storer's first two steps (acquire, then
begin the slow embedding) the embedding is in flight and the looker is
blocked. -/
theorem lookup_blocked_while_fallback_holds_lock_witness :
    storerInside 3 (runSched [true, true] (initSys 3)) ∧
      (runSched [true, true] (initSys 3)).lock = LockSt.writeHeld := by
  constructor
  · constructor
    · decide
    · decide
  · exact (lookup_blocked_while_fallback_holds_lock 3 [true, true] ⟨by decide, by decide⟩).1

/-- Claim C5: when the caller's earlier embedding generation failed
(embedding = None), the installed block still records the entry: the fallback
branch invokes store_response, and for every provider outcome - including a
second failure - the entry is afterwards retrievable by exact key with the
stored response and tier; the store step is a total state transition and never
aborts the caller's request path. -/
theorem fallback_store_records_entry {Key Emb Resp Tier : Type} [DecidableEq Key]
    (env : CallSiteEnv Key Emb Resp Tier) (h : env.embedding = none)
    (provider : Option Emb) (c : SemanticCache Key Emb Resp Tier) :
    installedBlockCall env =
      CacheCall.store_response env.cache_key env.response_text env.actual_tier
        (env.prompt_tokens + env.completion_tokens) ∧
    lookupByKey (applyCall provider c (installedBlockCall env)) env.cache_key =
      some (env.response_text, env.actual_tier) := by
  have hcall : installedBlockCall env =
      CacheCall.store_response env.cache_key env.response_text env.actual_tier
        (env.prompt_tokens + env.completion_tokens) := by
    rw [installedBlockCall, h]
  refine ⟨hcall, ?_⟩
  rw [hcall]
  cases provider with
  | some emb =>
    simp [applyCall, store_response, store_with_embedding, lookupByKey, List.find?]
  | none =>
    simp [applyCall, store_response, lookupByKey, List.find?]

/-- Claim C6 (amended): after any sequence of insert and remove operations
through the patched call site, every Similarity Index entry maps to a live
Entry Store entry; and when every store in the sequence carried an embedding
into the index (no key-only provider-failure fallback), the converse holds as
well, so index and store never diverge. -/
theorem index_store_invariant_amended {Key Emb Resp Tier : Type}
    (ops : List (CacheOp Key Emb Resp Tier)) :
    indexToStore (applyOps (emptyCache : SemanticCache Key Emb Resp Tier) ops) ∧
    ((∀ op ∈ ops, opProvidesEmbedding op = true) →
      consistentCache (applyOps (emptyCache : SemanticCache Key Emb Resp Tier) ops)) := by
  have hbase1 : indexToStore (emptyCache : SemanticCache Key Emb Resp Tier) := by
    intro p hp
    simp [emptyCache] at hp
  have hbase2 : storeToIndex (emptyCache : SemanticCache Key Emb Resp Tier) := by
    intro q hq
    simp [emptyCache] at hq
  refine ⟨indexToStore_applyOps ops emptyCache hbase1, ?_⟩
  intro hops
  exact ⟨indexToStore_applyOps ops emptyCache hbase1,
    storeToIndex_applyOps ops hops emptyCache hbase2⟩

/-- Witness for claim C6 at a concrete operation sequence containing both
store paths and a removal. -/
theorem index_store_invariant_amended_witness :
    indexToStore
      (applyOps (emptyCache : SemanticCache Nat Nat String Nat)
        [CacheOp.storeWithEmbedding 1 10 "R" 0 5,
         CacheOp.storeResponse (some 11) 2 "S" 1 7,
         CacheOp.remove 0]) ∧
    consistentCache
      (applyOps (emptyCache : SemanticCache Nat Nat String Nat)
        [CacheOp.storeWithEmbedding 1 10 "R" 0 5,
         CacheOp.storeResponse (some 11) 2 "S" 1 7,
         CacheOp.remove 0]) :=
  ⟨(index_store_invariant_amended _).1, (index_store_invariant_amended _).2 (by decide)⟩

/-- Claim C9: the substitution modifies only the matched regions: the input
is exactly the segments between non-overlapping occurrences of the legacy
block joined by that block, the output is the same segments joined by the
replacement block (so all text outside occurrences is preserved in order), and
every non-overlapping occurrence - not just the first - is replaced, no
segment containing a further occurrence. -/
theorem substitution_frame_property (s : List Char) :
    ∃ segs : List (List Char),
      segs ≠ [] ∧
      (∀ u ∈ segs, ¬ oldLiteralStr.data <:+: u) ∧
      List.intercalate oldLiteralStr.data segs = s ∧
      replaceAll oldLiteralStr.data newCodeStr.data s =
        List.intercalate newCodeStr.data segs := by
  cases hp : oldLiteralStr.data with
  | nil => exact absurd hp (by decide)
  | cons p0 ps =>
    refine ⟨splitFrom p0 ps s, splitFrom_ne_nil p0 ps s, ?_, ?_, ?_⟩
    · intro u hu
      exact splitFrom_no_occ p0 ps s u hu
    · exact splitFrom_intercalate p0 ps s
    · rfl

/-- Claim C1 (code bug): the claim states that in every branch of the
installed block no embedding computation is awaited inside the write-locked
scope, including the fallback branch.  The code violates this in the fallback
branch: `state.cache.write().await` is acquired before the `if let`, and the
`else` branch then awaits `cache.store_response(...)` - which generates the
embedding internally - while the write guard is held.  Evaluating the block's
trace at the failing input (embedding = None): the awaited embedding
generation occurs between lock acquisition and release, and the events under
the write lock are exactly the embedding generation followed by the insert. -/
theorem fallback_embed_generation_under_write_lock :
    Ev.embedGenAwaited ∈
      eventsUnderWriteLock (installedBlockEvents (none : Option Unit)) false ∧
    eventsUnderWriteLock (installedBlockEvents (none : Option Unit)) false =
      [Ev.embedGenAwaited, Ev.insertIndexStore] := by
  exact ⟨by decide, by decide⟩

/-- Claim C3: the installed block dispatches on the optional pre-computed
embedding as a sum type: on Some(emb) it calls store_with_embedding with
cache_key, emb, response_text.clone(), actual_tier and
prompt_tokens + completion_tokens; on None it calls store_response with the
same arguments minus the embedding. -/
theorem installed_block_dispatch {Key Emb Resp Tier : Type} (env : CallSiteEnv Key Emb Resp Tier) :
    (∀ e, env.embedding = some e →
      installedBlockCall env =
        CacheCall.store_with_embedding env.cache_key e env.response_text env.actual_tier
          (env.prompt_tokens + env.completion_tokens)) ∧
    (env.embedding = none →
      installedBlockCall env =
        CacheCall.store_response env.cache_key env.response_text env.actual_tier
          (env.prompt_tokens + env.completion_tokens)) := by
  constructor
  · intro e he
    rw [installedBlockCall, he]
  · intro he
    rw [installedBlockCall, he]

/-- Witness for claim C3 at concrete argument values. -/
theorem installed_block_dispatch_witness :
    installedBlockCall (⟨1, some 2, "R", 0, 3, 4⟩ : CallSiteEnv Nat Nat String Nat) =
      CacheCall.store_with_embedding 1 2 "R" 0 (3 + 4) ∧
    installedBlockCall (⟨1, none, "R", 0, 3, 4⟩ : CallSiteEnv Nat Nat String Nat) =
      CacheCall.store_response 1 "R" 0 (3 + 4) :=
  ⟨(installed_block_dispatch ⟨1, some 2, "R", 0, 3, 4⟩).1 2 rfl, (installed_block_dispatch ⟨1, none, "R", 0, 3, 4⟩).2 rfl⟩

/-- Claim C4: the fast path is synchronous with respect to the caller: the
store_with_embedding call statement carries no .await (in contrast to the
fallback's awaited store_response), and in the fast path's event trace no
suspension point follows the write-lock acquisition, whereas the fallback
trace suspends on the awaited embedding generation. -/
theorem fast_path_has_no_await_after_lock :
    branchAwaitFlags fastBranch = [false] ∧
    branchAwaitFlags fallbackBranch = [true] ∧
    (∀ (α : Type) (e : α),
      (afterAcquire (installedBlockEvents (some e))).filter isSuspensionEv = []) ∧
    (afterAcquire (installedBlockEvents (none : Option Unit))).filter isSuspensionEv =
      [Ev.embedGenAwaited] := by
  exact ⟨rfl, rfl, fun α e => rfl, rfl⟩

/-- Witness for claim C5: storing through the fallback path into the empty
cache with a failing provider still leaves the entry retrievable by key. -/
theorem fallback_store_records_entry_witness :
    installedBlockCall (⟨1, none, "R", 0, 3, 4⟩ : CallSiteEnv Nat Nat String Nat) =
      CacheCall.store_response 1 "R" 0 (3 + 4) ∧
    lookupByKey
      (applyCall none (emptyCache : SemanticCache Nat Nat String Nat)
        (installedBlockCall (⟨1, none, "R", 0, 3, 4⟩ : CallSiteEnv Nat Nat String Nat))) 1 =
      some ("R", 0) :=
  fallback_store_records_entry (⟨1, none, "R", 0, 3, 4⟩ : CallSiteEnv Nat Nat String Nat) rfl none emptyCache

/-- The script's effect trace: it reads the target file, writes back exactly
the literal substitution of the legacy block by the replacement block, and
prints the success message. -/
theorem runScript_spec (content : List Char) :
    runScript content =
      [Effect.readFile targetPath,
       Effect.writeFile targetPath (replaceAll oldLiteralStr.data newCodeStr.data content),
       Effect.printLine successMessage] := by
  rw [runScript, reSub, parsePat_oldPattern]

/-- Claim C2: for every input file content the script's end-to-end behaviour
is read, substitute, write back to the same file, print - and the written
content equals re.sub(old_pattern, new_code, content), which (the pattern
being a pure literal) is the leftmost non-overlapping literal replacement of
the legacy block by the new conditional block, and nothing else. -/
theorem script_writes_exact_substitution (content : List Char) :
    runScript content =
      [Effect.readFile targetPath,
       Effect.writeFile targetPath (replaceAll oldLiteralStr.data newCodeStr.data content),
       Effect.printLine successMessage] :=
  runScript_spec content

/-- Claim C10: if the legacy block does not occur in the input, the script
still rewrites the file with byte-identical content and still prints the
success message: it performs no check that the substitution applied, so a
failed patch is indistinguishable from a successful one at the script's
interface. -/
theorem missing_pattern_silent_success (content : List Char)
    (h : ¬ oldLiteralStr.data <:+: content) :
    runScript content =
      [Effect.readFile targetPath, Effect.writeFile targetPath content,
       Effect.printLine successMessage] := by
  rw [runScript_spec content, replaceAll_eq_of_no_occ _ _ _ h]

/-- Witness for claim C10 on a file that does not contain the pattern. -/
theorem missing_pattern_silent_success_witness :
    runScript "hello".data =
      [Effect.readFile targetPath, Effect.writeFile targetPath "hello".data,
       Effect.printLine successMessage] :=
  missing_pattern_silent_success "hello".data
    (fun h => absurd ((hasInfixB_iff oldLiteralStr.data "hello".data).mpr h) (by decide))
